import Mathlib

/-
Verification of the polygon data model and merge/retriangulation engine of
the python-stl repository (stl/types.py), against its specification.

Coordinates are modelled as elements of an arbitrary linearly ordered
commutative ring R.  The source stores IEEE double precision floats; every
operation verified here uses only addition, subtraction, multiplication and
order comparisons, so the embedding is stated generically over R and the
concrete witnesses instantiate R with the integers, on which every value in
the source test-suite is represented exactly.

A computed facet normal in the source (Facet._calc_normal) is the normalized
cross product cross/|cross|.  Normalization divides by a square root, which
leaves the ring, so a computed normal is represented by the constructor
NVal.dir u, standing for the exact real vector u/|u| with u the unnormalized
cross product, and a caller-supplied normal is represented by NVal.raw v,
standing for the vector v itself.  Equality of two such values in exact real
arithmetic is decided by nvalBeq below: dir u equals dir w iff u and w are
positive multiples of one another, and raw v equals dir u iff v has squared
norm 1 and points the same way as u.  This models the exact floating point
comparison of the source under the idealization that float arithmetic is
exact real arithmetic.
-/

/-- Three dimensional coordinate value (Vector3d in the source). -/
structure Vec (R : Type) where
  x : R
  y : R
  z : R
deriving DecidableEq, Repr

variable {R : Type} [LinearOrderedCommRing R]

instance : Inhabited (Vec R) := ⟨⟨0, 0, 0⟩⟩

/-- Componentwise difference, as produced by the numpy subtraction in
Facet._calc_normal. -/
def vsub (u w : Vec R) : Vec R :=
  ⟨u.x - w.x, u.y - w.y, u.z - w.z⟩

/-- Cross product, as produced by numpy.cross in Facet._calc_normal. -/
def cross (u w : Vec R) : Vec R :=
  ⟨u.y * w.z - u.z * w.y, u.z * w.x - u.x * w.z, u.x * w.y - u.y * w.x⟩

/-- Dot product, used to decide whether two vectors point the same way. -/
def dot (u w : Vec R) : R :=
  u.x * w.x + u.y * w.y + u.z * w.z

/-- Squared euclidean norm. -/
def normSq (v : Vec R) : R :=
  v.x * v.x + v.y * v.y + v.z * v.z

/-- Value of a facet normal.  raw v is a caller-supplied Vector3d v; dir u
stands for the exact real normalization u/|u| of a nonzero cross product u,
as computed by Facet._calc_normal. -/
inductive NVal (R : Type) where
  | raw (v : Vec R)
  | dir (u : Vec R)
deriving DecidableEq, Repr

/-- Decides whether u/|u| = w/|w| holds in exact real arithmetic for nonzero
u and w: this is equivalent to w being a positive multiple of u, that is,
cross u w = 0 and dot u w > 0. -/
def sameDir (u w : Vec R) : Bool :=
  decide (cross u w = ⟨0, 0, 0⟩) && decide (0 < dot u w)

/-- Equality test on normal values, modelling the exact float comparison of
the source in exact real arithmetic.  A raw vector v equals a normalized
value u/|u| iff v itself has norm 1 (equivalently squared norm 1) and points
the same way as u. -/
def nvalBeq : NVal R → NVal R → Bool
  | .raw v, .raw w => decide (v = w)
  | .raw v, .dir u => decide (normSq v = 1) && sameDir v u
  | .dir u, .raw v => decide (normSq v = 1) && sameDir v u
  | .dir u, .dir w => sameDir u w

/-- Equality test on optional normals; the source compares with the Python
operators == and !=, under which None equals only None. -/
def normalBeq : Option (NVal R) → Option (NVal R) → Bool
  | none, none => true
  | some a, some b => nvalBeq a b
  | _, _ => false

/-- Facet._calc_normal: the unit normal of three vertices by the right hand
rule, or none when the cross product has zero length (colinear inputs).  In
exact real arithmetic the length is zero iff the cross product is the zero
vector. -/
def calc_normal (v0 v1 v2 : Vec R) : Option (NVal R) :=
  let n := cross (vsub v1 v0) (vsub v2 v1)
  if n = ⟨0, 0, 0⟩ then none else some (.dir n)

/-- A facet: an optional normal and an ordered vertex list. -/
structure Facet (R : Type) where
  normal : Option (NVal R)
  vertices : List (Vec R)
deriving DecidableEq, Repr

/-- Facet.recalculate_normal applies Facet._calc_normal to vertices[0:3].
With fewer than three vertices the source would raise a TypeError; all
facets considered by the specification have at least three vertices, and the
embedding returns none in that unreachable case. -/
def calc_normal_of_list : List (Vec R) → Option (NVal R)
  | v0 :: v1 :: v2 :: _ => calc_normal v0 v1 v2
  | _ => none

/-- Facet.__init__: when the supplied normal is falsy it is recomputed from
the first three vertices via recalculate_normal, otherwise it is stored
exactly as given.  The only falsy value a normal argument can take in the
source without raising is None (a Vector3d is a nonempty tuple and hence
always truthy), so the falsy case is exactly the none case. -/
def mkFacet (normal : Option (NVal R)) (vertices : List (Vec R)) : Facet R :=
  match normal with
  | some nv => ⟨some nv, vertices⟩
  | none => ⟨calc_normal_of_list vertices, vertices⟩

/-- List indexing with the zero vector as default; every use below is guarded
by a bound on the index. -/
def vget (vs : List (Vec R)) (i : Nat) : Vec R :=
  vs.getD i default

/-- First index i with start <= i < start + fuel satisfying P, scanning
upward from start.  This models a Python for-loop over range that returns at
the first hit. -/
def scanFirst (P : Nat → Bool) : Nat → Nat → Option Nat
  | _, 0 => none
  | s, fuel + 1 => if P s then some s else scanFirst P (s + 1) fuel

/-- First defined value of F on start <= i < start + fuel, scanning upward.
This models a Python for-loop that returns the first successfully computed
result. -/
def scanFirstSome {α : Type} (F : Nat → Option α) : Nat → Nat → Option α
  | _, 0 => none
  | s, fuel + 1 =>
    match F s with
    | some a => some a
    | none => scanFirstSome F (s + 1) fuel

/-- Lexicographic order on coordinate triples, as used by the Python tuple
comparison on Vector3d. -/
def vecLe (a b : Vec R) : Bool :=
  decide (a.x < b.x) ||
    (decide (a.x = b.x) &&
      (decide (a.y < b.y) || (decide (a.y = b.y) && decide (a.z ≤ b.z))))

/-- Index of the first occurrence of the lexicographically smallest vertex.
Facet.sort_vertices computes min over the pairs (vertex, index), whose
lexicographic tuple order selects exactly the smallest vertex with ties
broken towards the smallest index. -/
def indexOfMin : List (Vec R) → Nat
  | [] => 0
  | v :: rest =>
    match rest[indexOfMin rest]? with
    | none => 0
    | some w => if vecLe v w then 0 else indexOfMin rest + 1

/-- Facet.sort_vertices: each vertex at old index i is given the new index
(i - k) mod n where k is the index of the minimum, and the list is sorted by
new index.  The new indices are exactly 0, ..., n-1, each occurring once, so
the sorted result places at position j the vertex with old index
(j + k) mod n, which is the left rotation of the list by k. -/
def sort_vertices (vs : List (Vec R)) : List (Vec R) :=
  let n := vs.length
  let k := indexOfMin vs
  (List.range n).map (fun j => vget vs ((j + k) % n))

/-- Booleans deciding whether edge (i0, i0+1) of f equals edge (j0, j0+1) of
g traversed in the opposite direction, the condition tested inside
Facet.join: self.vertices[i0] == other.vertices[j1] and
self.vertices[i1] == other.vertices[j0] with i1, j1 the cyclic successors. -/
def edgeMatch (f g : Facet R) (i0 j0 : Nat) : Bool :=
  let n := f.vertices.length
  let m := g.vertices.length
  decide (vget f.vertices i0 = vget g.vertices ((j0 + 1) % m)) &&
    decide (vget f.vertices ((i0 + 1) % n) = vget g.vertices j0)

/-- Vertices collected by the loop "i = start; while i != stop: append v[i];
i = (i+1) % n" of Facet.join.  Starting from start = (stop+1) % n the loop
appends exactly n - 1 vertices, namely v[(start+t) % n] for t = 0, ..., n-2. -/
def cycleFrom (vs : List (Vec R)) (start len : Nat) : List (Vec R) :=
  (List.range len).map (fun t => vget vs ((start + t) % vs.length))

/-- Vertex list of the facet built by Facet.join at the matching edge pair
(i0, j0): the vertices of f walked from i0+1 cyclically around to i0
exclusive, followed by the vertices of g walked from j0+1 cyclically around
to j0 exclusive. -/
def joinVertices (f g : Facet R) (i0 j0 : Nat) : List (Vec R) :=
  let n := f.vertices.length
  let m := g.vertices.length
  cycleFrom f.vertices ((i0 + 1) % n) (n - 1) ++
    cycleFrom g.vertices ((j0 + 1) % m) (m - 1)

/-- Nested scan of Facet.join over all ordered pairs of edge indices, outer
loop over i0, inner loop over j0, stopping at the first match. -/
def joinScan (f g : Facet R) : Option (Nat × Nat) :=
  scanFirstSome
    (fun i0 =>
      (scanFirst (fun j0 => edgeMatch f g i0 j0) 0 g.vertices.length).map
        (fun j0 => (i0, j0)))
    0 f.vertices.length

/-- Facet.join: None when the normals differ; otherwise the facet built from
the first matching reversed edge pair in traversal order, constructed with
the Facet initializer (which recomputes the normal when the shared normal is
None, since None is falsy). -/
def Facet.join (f g : Facet R) : Option (Facet R) :=
  if normalBeq f.normal g.normal then
    match joinScan f g with
    | some (i0, j0) => some (mkFacet f.normal (joinVertices f g i0 j0))
    | none => none
  else none

/-- Inner loop over x of Facet.split_to_triangles: the candidate ear at a is
accepted iff for every other index x neither break fires, that is, the
candidate triangle has the facet normal and the three normals formed between
v[x] and the edges of the candidate are not all equal. -/
def isValidEar (nrm : Option (NVal R)) (v : List (Vec R)) (a : Nat) : Bool :=
  let n := v.length
  let b := (a + 1) % n
  let c := (b + 1) % n
  (List.range n).all (fun x =>
    if x = a ∨ x = b ∨ x = c then true
    else
      normalBeq (calc_normal (vget v a) (vget v b) (vget v c)) nrm &&
        !(normalBeq (calc_normal (vget v x) (vget v a) (vget v b))
            (calc_normal (vget v x) (vget v b) (vget v c)) &&
          normalBeq (calc_normal (vget v x) (vget v b) (vget v c))
            (calc_normal (vget v x) (vget v c) (vget v a))))

/-- Scan of Facet.split_to_triangles for the first valid ear. -/
def findEar (nrm : Option (NVal R)) (v : List (Vec R)) : Option Nat :=
  scanFirst (isValidEar nrm v) 0 v.length

/-- While loop of Facet.split_to_triangles.  Each successful iteration emits
the ear triangle through the Facet initializer and removes the middle vertex
of the ear; when at most three vertices remain the final facet is emitted.
The source loop has no exit when no ear is found, so the embedding carries
fuel and returns none exactly when the source would scan without progress:
the fuel passed by split_to_triangles below is the vertex count, and since
every iteration removes one vertex the fuel can never be exhausted before
the three vertex exit, hence none models the infinite loop of the source. -/
def splitLoop (nrm : Option (NVal R)) : Nat → List (Vec R) → Option (List (Facet R))
  | 0, v => if v.length ≤ 3 then some [mkFacet nrm v] else none
  | fuel + 1, v =>
    if v.length ≤ 3 then some [mkFacet nrm v]
    else
      match findEar nrm v with
      | none => none
      | some a =>
        let n := v.length
        let b := (a + 1) % n
        let c := (b + 1) % n
        (splitLoop nrm fuel (v.eraseIdx b)).map
          (fun rest => mkFacet nrm [vget v a, vget v b, vget v c] :: rest)

/-- Facet.split_to_triangles, with fuel equal to the vertex count (see
splitLoop): some fs when the source terminates with result fs, none when the
source loops forever because a full scan finds no ear. -/
def split_to_triangles (f : Facet R) : Option (List (Facet R)) :=
  splitLoop f.normal f.vertices.length f.vertices

/-- Scan of Facet.remove_1d_vertex for the first index i whose vertex equals
the vertex two positions later cyclically. -/
def findSpike (vs : List (Vec R)) : Option Nat :=
  scanFirst (fun i => decide (vget vs i = vget vs ((i + 2) % vs.length))) 0
    vs.length

/-- Facet.remove_1d_vertex: at the first index i with
vertices[i] == vertices[(i+2) % n], return the middle vertex
vertices[(i+1) % n] and the vertex list with positions (i+1) % n and
(i+2) % n removed, higher index popped first so the lower index stays valid;
none when no such index exists. -/
def remove_1d_vertex (vs : List (Vec R)) : Option (Vec R × List (Vec R)) :=
  match findSpike vs with
  | none => none
  | some i =>
    let n := vs.length
    let j := (i + 1) % n
    let k := (i + 2) % n
    some (vget vs j, (vs.eraseIdx (max j k)).eraseIdx (min j k))

/-- A solid: an optional name and an ordered facet list. -/
structure Solid (R : Type) where
  name : Option String
  facets : List (Facet R)
deriving DecidableEq, Repr

/-- Order preserving removal of the facets at positions i and j, as built by
the list comprehension in Solid.remove_planar_edge. -/
def removeTwo (fs : List (Facet R)) (i j : Nat) : List (Facet R) :=
  (fs.enum.filter (fun p => decide (p.1 ≠ i ∧ p.1 ≠ j))).map (fun p => p.2)

/-- Facet list indexing with an empty facet as default; every use below is
guarded by a bound on the index. -/
def fget (fs : List (Facet R)) (i : Nat) : Facet R :=
  fs.getD i ⟨none, []⟩

/-- Nested scan of Solid.remove_planar_edge over itertools.product of the
index range with itself: outer loop i, inner loop j, skipping i = j, and
stopping at the first pair whose join succeeds (a Facet object is always
truthy).  Returns the pair of indices together with the joined facet. -/
def planarEdgeScan (fs : List (Facet R)) : Option (Nat × Nat × Facet R) :=
  scanFirstSome
    (fun i =>
      scanFirstSome
        (fun j =>
          if i = j then none
          else ((fget fs i).join (fget fs j)).map (fun h => (i, j, h)))
        0 fs.length)
    0 fs.length

/-- Solid.remove_planar_edge: at the first successful pair (i, j) the facet
list is replaced by all facets except those at positions i and j, in order,
with the joined facet appended at the end; the joined facet is returned.
None when no ordered pair joins. -/
def remove_planar_edge (s : Solid R) : Option (Facet R × Solid R) :=
  match planarEdgeScan s.facets with
  | none => none
  | some (i, j, h) => some (h, ⟨s.name, removeTwo s.facets i j ++ [h]⟩)

/-- While loop of Solid.remove_planar_edges, with fuel.  Every successful
merge shrinks the facet list by one, so fuel equal to the facet count can
never be exhausted before remove_planar_edge returns None; the fuel zero
case is reachable only with an empty facet list, on which
remove_planar_edge returns None as well. -/
def removePlanarLoop : Nat → Solid R → Nat × Solid R
  | 0, s => (0, s)
  | fuel + 1, s =>
    match remove_planar_edge s with
    | none => (0, s)
    | some (_, s1) =>
      let r := removePlanarLoop fuel s1
      (r.1 + 1, r.2)

/-- Solid.remove_planar_edges: repeatedly remove a planar edge until
remove_planar_edge returns None, counting the successful merges. -/
def remove_planar_edges (s : Solid R) : Nat × Solid R :=
  removePlanarLoop s.facets.length s

/-- Modelled from the spec: Vector3d.map_coordinates is absent from the
stl/types.py snapshot under verification (only the test-suite calls it).
The spec states that map_coordinates(f) applies a coordinate-wise function
and returns a new Vector3d, leaving the receiver unchanged. -/
def map_coordinates (f : R → R) (v : Vec R) : Vec R :=
  ⟨f v.x, f v.y, f v.z⟩

/-
Concrete integer valued inputs used by witnesses and counterexamples.
-/

/-- Unit square in the plane z = 0, counterclockwise, normal recomputed by
the initializer from the first three vertices. -/
def squareFacet : Facet ℤ :=
  mkFacet none [⟨0, 0, 0⟩, ⟨1, 0, 0⟩, ⟨1, 1, 0⟩, ⟨0, 1, 0⟩]

/-- Facet whose first three vertices are colinear, so the initializer stores
the absent normal, while the last three vertices are not colinear. -/
def degenFacet : Facet ℤ :=
  mkFacet none [⟨0, 0, 0⟩, ⟨1, 0, 0⟩, ⟨2, 0, 0⟩, ⟨0, 1, 0⟩]

/-- Degenerate triangle sharing the reversed edge (1,0,0)-(0,0,0) with
degenFacet; its vertices are colinear, so its normal is also absent. -/
def degenTri : Facet ℤ :=
  mkFacet none [⟨1, 0, 0⟩, ⟨0, 0, 0⟩, ⟨3, 0, 0⟩]

/-- Unit square wound clockwise but constructed with the upward normal
(0,0,1): every candidate ear computes the downward normal, so
split_to_triangles never finds an ear. -/
def cwSquareFacet : Facet ℤ :=
  mkFacet (some (.raw ⟨0, 0, 1⟩)) [⟨0, 0, 0⟩, ⟨0, 1, 0⟩, ⟨1, 1, 0⟩, ⟨1, 0, 0⟩]

/-- Two coplanar right triangles sharing their hypotenuse from (0,0,0) to
(1,1,0), with equal upward normals and opposite winding on the shared edge:
the two halves of the unit square. -/
def twoTriSolid : Solid ℤ :=
  ⟨some ("test"),
   [mkFacet (some (.raw ⟨0, 0, 1⟩)) [⟨0, 0, 0⟩, ⟨1, 0, 0⟩, ⟨1, 1, 0⟩],
    mkFacet (some (.raw ⟨0, 0, 1⟩)) [⟨0, 0, 0⟩, ⟨1, 1, 0⟩, ⟨0, 1, 0⟩]]⟩

/-- Two facets with different normals: no pair joins. -/
def noJoinSolid : Solid ℤ :=
  ⟨some ("test"),
   [mkFacet (some (.raw ⟨0, 0, 1⟩)) [⟨0, 0, 0⟩, ⟨1, 0, 0⟩, ⟨1, 1, 0⟩],
    mkFacet (some (.raw ⟨1, 0, 0⟩)) [⟨0, 0, 0⟩, ⟨0, 1, 0⟩, ⟨0, 0, 1⟩]]⟩

/-- Vertex list whose lexicographically smallest vertex occurs twice. -/
def dupMinList : List (Vec ℤ) :=
  [⟨0, 0, 0⟩, ⟨1, 0, 0⟩, ⟨0, 0, 0⟩, ⟨2, 0, 0⟩]

/-- Vertex list with a spike: positions 0 and 2 hold the same vertex, so the
vertex at position 1 does not contribute to the area. -/
def spikeList : List (Vec ℤ) :=
  [⟨0, 0, 0⟩, ⟨5, 5, 5⟩, ⟨0, 0, 0⟩, ⟨2, 0, 0⟩]

/-- The two triangles produced by splitting the unit square, as printed by
the source test-suite: both carry the parent normal (the normalization of
the cross product (0,0,1)). -/
def squareTris : List (Facet ℤ) :=
  [⟨some (.dir ⟨0, 0, 1⟩), [⟨0, 0, 0⟩, ⟨1, 0, 0⟩, ⟨1, 1, 0⟩]⟩,
   ⟨some (.dir ⟨0, 0, 1⟩), [⟨0, 0, 0⟩, ⟨1, 1, 0⟩, ⟨0, 1, 0⟩]⟩]

/-- The quadrilateral produced by merging the two halves of the unit square:
the shared raw normal and the four square vertices. -/
def squareQuad : Facet ℤ :=
  ⟨some (.raw ⟨0, 0, 1⟩), [⟨0, 0, 0⟩, ⟨1, 0, 0⟩, ⟨1, 1, 0⟩, ⟨0, 1, 0⟩]⟩

/-- The solid left after merging the two triangles of twoTriSolid. -/
def joinedSolid : Solid ℤ :=
  ⟨some ("test"), [squareQuad]⟩

/-
Helper lemmas about the loop scanners.
-/

theorem scanFirst_eq_none_iff (P : Nat → Bool) (s fuel : Nat) :
    scanFirst P s fuel = none ↔ ∀ i, s ≤ i → i < s + fuel → P i = false := by
  induction fuel generalizing s with
  | zero =>
    constructor
    · intro _ i h1 h2
      omega
    · intro _
      rfl
  | succ n ih =>
    cases h : P s with
    | true =>
      have hstep : scanFirst P s (n + 1) = some s := by
        simp [scanFirst, h]
      rw [hstep]
      constructor
      · intro hc
        simp at hc
      · intro H
        have hs := H s le_rfl (by omega)
        rw [h] at hs
        simp at hs
    | false =>
      have hstep : scanFirst P s (n + 1) = scanFirst P (s + 1) n := by
        simp [scanFirst, h]
      rw [hstep, ih]
      constructor
      · intro H i h1 h2
        rcases Nat.eq_or_lt_of_le h1 with rfl | h1
        · exact h
        · exact H i h1 (by omega)
      · intro H i h1 h2
        exact H i (by omega) (by omega)

theorem scanFirst_eq_some_iff (P : Nat → Bool) (s fuel x : Nat) :
    scanFirst P s fuel = some x ↔
      s ≤ x ∧ x < s + fuel ∧ P x = true ∧
        ∀ y, s ≤ y → y < x → P y = false := by
  induction fuel generalizing s with
  | zero =>
    constructor
    · intro hc
      simp [scanFirst] at hc
    · intro ⟨h1, h2, _⟩
      omega
  | succ n ih =>
    cases h : P s with
    | true =>
      have hstep : scanFirst P s (n + 1) = some s := by
        simp [scanFirst, h]
      rw [hstep]
      constructor
      · intro hc
        have hx : s = x := by simpa using hc
        subst hx
        exact ⟨le_rfl, by omega, h, fun y hy1 hy2 => by omega⟩
      · rintro ⟨h1, _, _, hfirst⟩
        rcases Nat.eq_or_lt_of_le h1 with rfl | h1
        · rfl
        · have hs := hfirst s le_rfl h1
          rw [h] at hs
          simp at hs
    | false =>
      have hstep : scanFirst P s (n + 1) = scanFirst P (s + 1) n := by
        simp [scanFirst, h]
      rw [hstep, ih]
      constructor
      · rintro ⟨h1, h2, h3, hfirst⟩
        refine ⟨by omega, by omega, h3, ?_⟩
        intro y hy1 hy2
        rcases Nat.eq_or_lt_of_le hy1 with rfl | hy1
        · exact h
        · exact hfirst y hy1 hy2
      · rintro ⟨h1, h2, h3, hfirst⟩
        rcases Nat.eq_or_lt_of_le h1 with rfl | h1
        · rw [h3] at h
          simp at h
        · exact ⟨h1, by omega, h3, fun y hy1 hy2 => hfirst y (by omega) hy2⟩

theorem scanFirstSome_eq_none_iff {α : Type} (F : Nat → Option α) (s fuel : Nat) :
    scanFirstSome F s fuel = none ↔ ∀ i, s ≤ i → i < s + fuel → F i = none := by
  induction fuel generalizing s with
  | zero =>
    constructor
    · intro _ i h1 h2
      omega
    · intro _
      rfl
  | succ n ih =>
    cases hF : F s with
    | some a =>
      have hstep : scanFirstSome F s (n + 1) = some a := by
        simp [scanFirstSome, hF]
      rw [hstep]
      constructor
      · intro hc
        simp at hc
      · intro H
        have hs := H s le_rfl (by omega)
        rw [hF] at hs
        simp at hs
    | none =>
      have hstep : scanFirstSome F s (n + 1) = scanFirstSome F (s + 1) n := by
        simp [scanFirstSome, hF]
      rw [hstep, ih]
      constructor
      · intro H i h1 h2
        rcases Nat.eq_or_lt_of_le h1 with rfl | h1
        · exact hF
        · exact H i h1 (by omega)
      · intro H i h1 h2
        exact H i (by omega) (by omega)

theorem scanFirstSome_eq_some_iff {α : Type} (F : Nat → Option α) (s fuel : Nat)
    (a : α) :
    scanFirstSome F s fuel = some a ↔
      ∃ i, s ≤ i ∧ i < s + fuel ∧ F i = some a ∧
        ∀ y, s ≤ y → y < i → F y = none := by
  induction fuel generalizing s with
  | zero =>
    constructor
    · intro hc
      simp [scanFirstSome] at hc
    · rintro ⟨i, h1, h2, _⟩
      omega
  | succ n ih =>
    cases hF : F s with
    | some b =>
      have hstep : scanFirstSome F s (n + 1) = some b := by
        simp [scanFirstSome, hF]
      rw [hstep]
      constructor
      · intro hc
        have hb : b = a := by simpa using hc
        subst hb
        exact ⟨s, le_rfl, by omega, hF, fun y hy1 hy2 => by omega⟩
      · rintro ⟨i, h1, h2, h3, hfirst⟩
        rcases Nat.eq_or_lt_of_le h1 with rfl | h1
        · rw [hF] at h3
          exact h3.symm ▸ rfl
        · have hs := hfirst s le_rfl h1
          rw [hF] at hs
          simp at hs
    | none =>
      have hstep : scanFirstSome F s (n + 1) = scanFirstSome F (s + 1) n := by
        simp [scanFirstSome, hF]
      rw [hstep, ih]
      constructor
      · rintro ⟨i, h1, h2, h3, hfirst⟩
        refine ⟨i, by omega, by omega, h3, ?_⟩
        intro y hy1 hy2
        rcases Nat.eq_or_lt_of_le hy1 with rfl | hy1
        · exact hF
        · exact hfirst y hy1 hy2
      · rintro ⟨i, h1, h2, h3, hfirst⟩
        rcases Nat.eq_or_lt_of_le h1 with rfl | h1
        · rw [hF] at h3
          simp at h3
        · exact ⟨i, h1, by omega, h3, fun y hy1 hy2 => hfirst y (by omega) hy2⟩

/-
Helper lemmas about the facet initializer and the split loop.
-/

theorem mkFacet_vertices (nrm : Option (NVal R)) (vs : List (Vec R)) :
    (mkFacet nrm vs).vertices = vs := by
  cases nrm <;> rfl

theorem mkFacet_normal_some (nv : NVal R) (vs : List (Vec R)) :
    (mkFacet (some nv) vs).normal = some nv := rfl

theorem length_eraseIdx_of_lt {α : Type} {l : List α} {i : Nat}
    (h : i < l.length) : (l.eraseIdx i).length = l.length - 1 := by
  rw [List.length_eraseIdx]
  simp [h]

/-- Every facet emitted by a terminating run of the split loop has exactly
three vertices; the list of emitted facets has two entries fewer than the
working polygon; and when the parent normal is present every emitted facet
stores it unchanged (the initializer never recomputes a truthy normal). -/
theorem splitLoop_spec (nrm : Option (NVal R)) (fuel : Nat) (v : List (Vec R))
    (fs : List (Facet R)) (h3 : 3 ≤ v.length)
    (h : splitLoop nrm fuel v = some fs) :
    fs.length = v.length - 2 ∧
      (∀ t ∈ fs, t.vertices.length = 3) ∧
      ∀ nv, nrm = some nv → ∀ t ∈ fs, t.normal = some nv := by
  induction fuel generalizing v fs with
  | zero =>
    rw [splitLoop] at h
    by_cases hlen : v.length ≤ 3
    · rw [if_pos hlen] at h
      have hfs : fs = [mkFacet nrm v] := by
        cases h
        rfl
      subst hfs
      refine ⟨by simp; omega, ?_, ?_⟩
      · intro t ht
        rcases List.mem_singleton.mp ht with rfl
        rw [mkFacet_vertices]
        omega
      · rintro nv rfl t ht
        rcases List.mem_singleton.mp ht with rfl
        rfl
    · rw [if_neg hlen] at h
      simp at h
  | succ n ih =>
    rw [splitLoop] at h
    by_cases hlen : v.length ≤ 3
    · rw [if_pos hlen] at h
      have hfs : fs = [mkFacet nrm v] := by
        cases h
        rfl
      subst hfs
      refine ⟨by simp; omega, ?_, ?_⟩
      · intro t ht
        rcases List.mem_singleton.mp ht with rfl
        rw [mkFacet_vertices]
        omega
      · rintro nv rfl t ht
        rcases List.mem_singleton.mp ht with rfl
        rfl
    · rw [if_neg hlen] at h
      cases hEar : findEar nrm v with
      | none =>
        rw [hEar] at h
        simp at h
      | some a =>
        rw [hEar] at h
        simp only [Option.map_eq_some'] at h
        obtain ⟨rest, hrest, hfs⟩ := h
        have hb : (a + 1) % v.length < v.length :=
          Nat.mod_lt _ (by omega)
        have hlen2 : (v.eraseIdx ((a + 1) % v.length)).length = v.length - 1 :=
          length_eraseIdx_of_lt hb
        have ih2 := ih (v.eraseIdx ((a + 1) % v.length)) rest
          (by omega) hrest
        subst hfs
        refine ⟨?_, ?_, ?_⟩
        · simp only [List.length_cons, ih2.1, hlen2]
          omega
        · intro t ht
          rcases List.mem_cons.mp ht with rfl | ht
          · rw [mkFacet_vertices]
            rfl
          · exact ih2.2.1 t ht
        · rintro nv rfl t ht
          rcases List.mem_cons.mp ht with rfl | ht
          · rfl
          · exact ih2.2.2 nv rfl t ht

/-- C1 (amended): for every facet with n >= 3 vertices on which
split_to_triangles terminates, exactly n - 2 triangular facets are returned,
and when the parent normal is present every returned facet carries it
unchanged; when the parent normal is absent the initializer recomputes the
normal of each emitted triangle from its vertices, so the returned normals
need not be the parent normal (see the counterexample). -/
theorem split_count_and_normals (f : Facet R) (fs : List (Facet R))
    (h3 : 3 ≤ f.vertices.length) (hterm : split_to_triangles f = some fs) :
    fs.length = f.vertices.length - 2 ∧
      (∀ t ∈ fs, t.vertices.length = 3) ∧
      ∀ nv, f.normal = some nv → ∀ t ∈ fs, t.normal = some nv := by
  have h := splitLoop_spec f.normal f.vertices.length f.vertices fs h3 hterm
  exact ⟨h.1, h.2.1, fun nv hnv => h.2.2 nv hnv⟩

/-- Witness for C1 at the unit square: termination and the hypotheses hold
concretely and the conclusion is the expected pair of triangles. -/
theorem split_count_and_normals_witness :
    (3 ≤ squareFacet.vertices.length ∧
        split_to_triangles squareFacet = some squareTris) ∧
      squareTris.length = squareFacet.vertices.length - 2 ∧
        (∀ t ∈ squareTris, t.vertices.length = 3) ∧
        ∀ nv, squareFacet.normal = some nv → ∀ t ∈ squareTris, t.normal = some nv :=
  ⟨⟨by decide, by decide⟩,
   split_count_and_normals squareFacet squareTris (by decide) (by decide)⟩

/-- Counterexample to C1 as stated: a facet whose first three vertices are
colinear stores the absent normal, split_to_triangles terminates on it with
n - 2 = 2 facets, but the final emitted triangle has a recomputed, present
normal instead of the parent facet normal. -/
theorem split_parent_normal_counterexample :
    degenFacet.normal = none ∧
      (split_to_triangles degenFacet).map (List.map Facet.normal) =
        some [none, some (.dir ⟨0, 0, 2⟩)] := by
  decide

/-- C3: on a facet whose stored normal disagrees with every candidate ear
orientation a full scan of the source finds no ear, and the while loop of
split_to_triangles spins forever instead of failing: in the embedding the
split loop returns none at every fuel, so in particular no amount of fuel
makes it terminate, which is the infinite loop of the source (there is no
explicit failure path in the source at all). -/
theorem split_no_ear_loops_forever (fuel : Nat) :
    splitLoop cwSquareFacet.normal fuel cwSquareFacet.vertices = none := by
  have hEar : findEar cwSquareFacet.normal cwSquareFacet.vertices = none := by
    decide
  cases fuel with
  | zero =>
    rw [splitLoop]
    rw [if_neg (by decide)]
  | succ n =>
    rw [splitLoop]
    rw [if_neg (by decide), hEar]

/-- C10: the facet initializer recomputes the normal from the first three
vertices exactly when the supplied normal is absent (None, the only falsy
normal argument that does not raise in the source), stores a present normal
exactly as given with no consistency check, and can therefore build a facet
whose stored normal disagrees with the normal implied by its vertices: the
triple (0,0,0), (1,0,0), (1,1,0) implies the upward normal while the stored
raw normal (1,0,0) compares unequal to it. -/
theorem facet_init_normal (nv : NVal R) (a b c : Vec R) (rest vs : List (Vec R)) :
    (mkFacet none (a :: b :: c :: rest)).normal = calc_normal a b c ∧
      (mkFacet (some nv) vs).normal = some nv ∧
      ((mkFacet (some (.raw ⟨1, 0, 0⟩))
            [⟨0, 0, 0⟩, ⟨1, 0, 0⟩, ⟨1, 1, 0⟩] : Facet ℤ).normal =
          some (.raw ⟨1, 0, 0⟩) ∧
        calc_normal_of_list ([⟨0, 0, 0⟩, ⟨1, 0, 0⟩, ⟨1, 1, 0⟩] : List (Vec ℤ)) =
          some (.dir ⟨0, 0, 1⟩) ∧
        normalBeq (some (NVal.raw (⟨1, 0, 0⟩ : Vec ℤ)))
            (some (.dir (⟨0, 0, 1⟩ : Vec ℤ))) = false) :=
  ⟨rfl, rfl, by decide, by decide, by decide⟩

omit [LinearOrderedCommRing R] in
/-- C8: map_coordinates (modelled from the spec, see its definition) applies
the coordinate-wise function to each of the three components and returns the
resulting new vector; the receiver is a value, hence unchanged.  The last
conjunct checks a concrete instance. -/
theorem map_coordinates_spec (f : R → R) (v : Vec R) :
    (map_coordinates f v).x = f v.x ∧
      (map_coordinates f v).y = f v.y ∧
      (map_coordinates f v).z = f v.z ∧
      map_coordinates f v = ⟨f v.x, f v.y, f v.z⟩ ∧
      map_coordinates (fun t : ℤ => t * t) ⟨1, 2, 3⟩ = ⟨1, 4, 9⟩ :=
  ⟨rfl, rfl, rfl, rfl, rfl⟩

/-
Helper lemmas for remove_1d_vertex.
-/

theorem succ_mod_ne {n a : Nat} (h2 : 2 ≤ n) (ha : a < n) : (a + 1) % n ≠ a := by
  rcases Nat.lt_or_ge (a + 1) n with h | h
  · rw [Nat.mod_eq_of_lt h]
    omega
  · have hn : a + 1 = n := by omega
    rw [hn, Nat.mod_self]
    omega

theorem add_two_mod_eq (n i : Nat) :
    (i + 2) % n = ((i + 1) % n + 1) % n := by
  conv_lhs => rw [show i + 2 = (i + 1) + 1 from rfl, Nat.add_mod]
  conv_rhs => rw [Nat.add_mod]
  simp

/-- The two indices dropped by remove_1d_vertex are distinct as soon as the
facet has at least two vertices. -/
theorem spike_indices_ne {n i : Nat} (h2 : 2 ≤ n) :
    (i + 1) % n ≠ (i + 2) % n := by
  rw [add_two_mod_eq]
  intro hc
  exact succ_mod_ne h2 (Nat.mod_lt _ (by omega)) hc.symm

/-- Erasing first the higher and then the lower of two distinct valid
indices yields the list with exactly those two positions removed, in the
take and drop decomposition. -/
theorem eraseIdx_pair {α : Type} (l : List α) (a b : Nat) (hab : a < b)
    (hb : b < l.length) :
    (l.eraseIdx b).eraseIdx a =
      l.take a ++ ((l.drop (a + 1)).take (b - (a + 1))) ++ l.drop (b + 1) := by
  rw [List.eraseIdx_eq_take_drop_succ l b]
  have ha : a < (l.take b).length := by
    rw [List.length_take]
    omega
  rw [List.eraseIdx_append_of_lt_length ha]
  rw [List.eraseIdx_eq_take_drop_succ (l.take b) a]
  rw [List.take_take a b l, Nat.min_eq_left (by omega)]
  rw [List.drop_take b (a + 1) l]

/-- C7: remove_1d_vertex returns none exactly when no index i has the same
vertex as index (i+2) mod n; otherwise, at the first such i in scan order,
it returns the middle vertex at (i+1) mod n together with the list from
which the positions (i+1) mod n and (i+2) mod n were removed, popping the
higher position first so that the lower one stays valid; the remaining list
has n - 2 vertices, and equals the original with exactly those two positions
cut out (take and drop decomposition in the last conjunct). -/
theorem remove_1d_vertex_spec (vs : List (Vec R)) (h3 : 3 ≤ vs.length) :
    (remove_1d_vertex vs = none ↔
      ∀ i, i < vs.length → vget vs i ≠ vget vs ((i + 2) % vs.length)) ∧
    ∀ i, i < vs.length →
      vget vs i = vget vs ((i + 2) % vs.length) →
      (∀ y, y < i → vget vs y ≠ vget vs ((y + 2) % vs.length)) →
      remove_1d_vertex vs =
          some (vget vs ((i + 1) % vs.length),
            (vs.eraseIdx
                (max ((i + 1) % vs.length) ((i + 2) % vs.length))).eraseIdx
              (min ((i + 1) % vs.length) ((i + 2) % vs.length))) ∧
      ((vs.eraseIdx
            (max ((i + 1) % vs.length) ((i + 2) % vs.length))).eraseIdx
          (min ((i + 1) % vs.length) ((i + 2) % vs.length))).length =
        vs.length - 2 ∧
      (vs.eraseIdx
            (max ((i + 1) % vs.length) ((i + 2) % vs.length))).eraseIdx
          (min ((i + 1) % vs.length) ((i + 2) % vs.length)) =
        vs.take (min ((i + 1) % vs.length) ((i + 2) % vs.length)) ++
          ((vs.drop (min ((i + 1) % vs.length) ((i + 2) % vs.length) + 1)).take
            (max ((i + 1) % vs.length) ((i + 2) % vs.length) -
              (min ((i + 1) % vs.length) ((i + 2) % vs.length) + 1))) ++
          vs.drop (max ((i + 1) % vs.length) ((i + 2) % vs.length) + 1) := by
  constructor
  · constructor
    · intro hnone i hi hieq
      cases hfind : findSpike vs with
      | none =>
        rw [findSpike, scanFirst_eq_none_iff] at hfind
        have := hfind i (by omega) (by omega)
        rw [decide_eq_false_iff_not] at this
        exact this hieq
      | some a =>
        rw [remove_1d_vertex, hfind] at hnone
        simp at hnone
    · intro H
      have hfind : findSpike vs = none := by
        rw [findSpike, scanFirst_eq_none_iff]
        intro i h1 h2
        rw [decide_eq_false_iff_not]
        exact H i (by omega)
      rw [remove_1d_vertex, hfind]
  · intro i hi hieq hfirst
    have hfind : findSpike vs = some i := by
      rw [findSpike, scanFirst_eq_some_iff]
      refine ⟨by omega, by omega, by rw [decide_eq_true_eq]; exact hieq, ?_⟩
      intro y _ hy
      rw [decide_eq_false_iff_not]
      exact hfirst y hy
    have hn0 : 0 < vs.length := by omega
    have hj : (i + 1) % vs.length < vs.length := Nat.mod_lt _ hn0
    have hk : (i + 2) % vs.length < vs.length := Nat.mod_lt _ hn0
    have hjk : (i + 1) % vs.length ≠ (i + 2) % vs.length :=
      spike_indices_ne (by omega)
    have hmM : min ((i + 1) % vs.length) ((i + 2) % vs.length) <
        max ((i + 1) % vs.length) ((i + 2) % vs.length) := min_lt_max.mpr hjk
    have hM : max ((i + 1) % vs.length) ((i + 2) % vs.length) < vs.length :=
      max_lt hj hk
    refine ⟨?_, ?_, ?_⟩
    · rw [remove_1d_vertex, hfind]
    · rw [length_eraseIdx_of_lt (by rw [length_eraseIdx_of_lt hM]; omega),
        length_eraseIdx_of_lt hM]
      omega
    · exact eraseIdx_pair vs _ _ hmM hM

/-- Witness for C7 on a concrete spike list: the first spike is at index 0,
the middle vertex (5,5,5) is returned, and positions 1 and 2 are removed. -/
theorem remove_1d_vertex_spec_witness :
    remove_1d_vertex spikeList =
      some (vget spikeList 1, (spikeList.eraseIdx 2).eraseIdx 1) :=
  ((remove_1d_vertex_spec spikeList (by decide)).2 0 (by decide) (by decide)
      (fun y hy => absurd hy (Nat.not_lt_zero y))).1

/-
Helper lemmas for Facet.join.
-/

theorem joinScan_eq_none_iff (f g : Facet R) :
    joinScan f g = none ↔
      ∀ i0, i0 < f.vertices.length → ∀ j0, j0 < g.vertices.length →
        edgeMatch f g i0 j0 = false := by
  rw [joinScan, scanFirstSome_eq_none_iff]
  constructor
  · intro H i0 hi0 j0 hj0
    have hmap := H i0 (by omega) (by omega)
    simp only [Option.map_eq_none'] at hmap
    rw [scanFirst_eq_none_iff] at hmap
    exact hmap j0 (by omega) (by omega)
  · intro H i h1 h2
    simp only [Option.map_eq_none']
    rw [scanFirst_eq_none_iff]
    intro j hj1 hj2
    exact H i (by omega) j (by omega)

theorem joinScan_eq_first (f g : Facet R) (i0 j0 : Nat)
    (hi0 : i0 < f.vertices.length) (hj0 : j0 < g.vertices.length)
    (hmatch : edgeMatch f g i0 j0 = true)
    (hfi : ∀ i, i < i0 → ∀ j, j < g.vertices.length → edgeMatch f g i j = false)
    (hfj : ∀ j, j < j0 → edgeMatch f g i0 j = false) :
    joinScan f g = some (i0, j0) := by
  rw [joinScan, scanFirstSome_eq_some_iff]
  refine ⟨i0, by omega, by omega, ?_, ?_⟩
  · have hfirst : scanFirst (fun j0 => edgeMatch f g i0 j0) 0
        g.vertices.length = some j0 := by
      rw [scanFirst_eq_some_iff]
      exact ⟨by omega, by omega, hmatch, fun y _ hy => hfj y hy⟩
    simp only [hfirst, Option.map_some']
  · intro y _ hy
    simp only [Option.map_eq_none']
    rw [scanFirst_eq_none_iff]
    intro j h1 h2
    exact hfi y hy j (by omega)

/-- C2 (amended): join returns None exactly when the two normals differ or
no edge of f equals an edge of g traversed in the opposite direction;
otherwise, at the first matching edge pair in traversal order (outer scan
over the edges of f, inner scan over the edges of g), it returns the facet
built by the initializer from the shared normal and the vertex list walking
f from i0+1 cyclically around to i0 exclusive followed by g from j0+1
cyclically around to j0 exclusive.  When the shared normal is present the
returned facet stores it unchanged; when it is absent (both normals None)
the initializer recomputes the normal of the result from its first three
vertices (see the counterexample).  Both inputs are values and are left
unmodified. -/
theorem join_spec (f g : Facet R) :
    (f.join g = none ↔
      (normalBeq f.normal g.normal = false ∨
        ∀ i0, i0 < f.vertices.length → ∀ j0, j0 < g.vertices.length →
          edgeMatch f g i0 j0 = false)) ∧
    ∀ i0 j0, normalBeq f.normal g.normal = true →
      i0 < f.vertices.length → j0 < g.vertices.length →
      edgeMatch f g i0 j0 = true →
      (∀ i, i < i0 → ∀ j, j < g.vertices.length → edgeMatch f g i j = false) →
      (∀ j, j < j0 → edgeMatch f g i0 j = false) →
      f.join g = some (mkFacet f.normal (joinVertices f g i0 j0)) := by
  constructor
  · cases hnb : normalBeq f.normal g.normal with
    | false =>
      have hj : f.join g = none := by
        rw [Facet.join, if_neg (by simp [hnb])]
      rw [hj]
      constructor
      · intro _
        exact Or.inl rfl
      · intro _
        rfl
    | true =>
      rw [Facet.join, if_pos hnb]
      cases hscan : joinScan f g with
      | none =>
        constructor
        · intro _
          exact Or.inr ((joinScan_eq_none_iff f g).mp hscan)
        · intro _
          rfl
      | some p =>
        constructor
        · intro hc
          cases p
          exact absurd hc (by simp)
        · intro H
          rcases H with H | H
          · exact absurd H (by simp)
          · have hn := (joinScan_eq_none_iff f g).mpr H
            rw [hn] at hscan
            exact absurd hscan (by simp)
  · intro i0 j0 hnb hi0 hj0 hmatch hfi hfj
    have hscan := joinScan_eq_first f g i0 j0 hi0 hj0 hmatch hfi hfj
    rw [Facet.join, if_pos hnb, hscan]

/-- Witness for C2: the two triangles of the split unit square join at the
first matching edge pair (2, 0) back into the square. -/
theorem join_spec_witness :
    (fget squareTris 0).join (fget squareTris 1) =
      some (mkFacet (fget squareTris 0).normal
        (joinVertices (fget squareTris 0) (fget squareTris 1) 2 0)) :=
  (join_spec (fget squareTris 0) (fget squareTris 1)).2 2 0 (by decide)
    (by decide) (by decide) (by decide) (by decide) (by decide)

/-- Counterexample to C2 as stated: two facets that share the absent normal
and a reversed edge do join, but the returned facet carries a recomputed,
present normal rather than the shared absent one, because the Facet
initializer treats None as falsy and recomputes. -/
theorem join_shared_normal_counterexample :
    degenFacet.normal = none ∧ degenTri.normal = none ∧
      (degenFacet.join degenTri).map Facet.normal =
        some (some (.dir ⟨0, 0, 1⟩)) := by
  decide

/-- C6: splitting the unit square yields exactly the two expected triangles,
and joining them along their shared edge reproduces a 4 vertex facet whose
vertex list is exactly the square (one join order), or the square rotated
by two positions (the other join order, the one exercised by the source
test-suite); in both cases the vertex set equals the original square up to
cyclic rotation. -/
theorem split_join_square_inverse :
    split_to_triangles squareFacet = some squareTris ∧
      squareTris.length = 2 ∧
      (∀ t ∈ squareTris, t.vertices.length = 3) ∧
      (fget squareTris 0).join (fget squareTris 1) = some squareFacet ∧
      (fget squareTris 1).join (fget squareTris 0) =
        some ⟨some (.dir ⟨0, 0, 1⟩), squareFacet.vertices.rotate 2⟩ := by
  decide

/-
Helper lemmas for the planar edge removal pass.
-/

theorem removeTwo_length_aux {α : Type} (i j : Nat) (l : List α) :
    ∀ s : Nat,
      (((List.enumFrom s l).filter
          (fun p => decide (p.1 ≠ i ∧ p.1 ≠ j))).map (fun p => p.2)).length =
        l.length -
          ((if s ≤ i ∧ i < s + l.length then 1 else 0) +
            (if s ≤ j ∧ j < s + l.length ∧ i ≠ j then 1 else 0)) := by
  induction l with
  | nil =>
    intro s
    simp
  | cons a t ih =>
    intro s
    rw [List.enumFrom_cons, List.filter_cons]
    simp only [List.length_cons]
    by_cases hcond : s ≠ i ∧ s ≠ j
    · rw [if_pos (by simpa using hcond)]
      simp only [List.map_cons, List.length_cons]
      rw [ih (s + 1)]
      obtain ⟨h1, h2⟩ := hcond
      split_ifs <;> omega
    · rw [if_neg (by simpa using hcond)]
      rw [ih (s + 1)]
      have hor : s = i ∨ s = j := by tauto
      split_ifs <;> omega

omit [LinearOrderedCommRing R] in
theorem removeTwo_length (fs : List (Facet R)) (i j : Nat) (hij : i ≠ j)
    (hi : i < fs.length) (hj : j < fs.length) :
    (removeTwo fs i j).length = fs.length - 2 := by
  rw [removeTwo]
  rw [show fs.enum = List.enumFrom 0 fs from rfl]
  rw [removeTwo_length_aux i j fs 0]
  split_ifs <;> omega

theorem planarEdgeScan_sound (fs : List (Facet R)) (i j : Nat) (h : Facet R)
    (hscan : planarEdgeScan fs = some (i, j, h)) :
    i < fs.length ∧ j < fs.length ∧ i ≠ j ∧
      (fget fs i).join (fget fs j) = some h := by
  rw [planarEdgeScan, scanFirstSome_eq_some_iff] at hscan
  obtain ⟨i1, _, hi1, hF, _⟩ := hscan
  rw [scanFirstSome_eq_some_iff] at hF
  obtain ⟨j1, _, hj1, hG, _⟩ := hF
  by_cases he : i1 = j1
  · rw [if_pos he] at hG
    simp at hG
  · rw [if_neg he] at hG
    rw [Option.map_eq_some'] at hG
    obtain ⟨h2, hjoin, heq⟩ := hG
    rw [Prod.mk.injEq, Prod.mk.injEq] at heq
    obtain ⟨rfl, rfl, rfl⟩ := heq
    exact ⟨by omega, by omega, he, hjoin⟩

theorem remove_planar_edge_some (s : Solid R) (h : Facet R) (s1 : Solid R)
    (hrem : remove_planar_edge s = some (h, s1)) :
    ∃ i j, i < s.facets.length ∧ j < s.facets.length ∧ i ≠ j ∧
      (fget s.facets i).join (fget s.facets j) = some h ∧
      s1.facets = removeTwo s.facets i j ++ [h] ∧
      s1.name = s.name ∧
      s1.facets.length + 1 = s.facets.length := by
  rw [remove_planar_edge] at hrem
  cases hscan : planarEdgeScan s.facets with
  | none =>
    rw [hscan] at hrem
    simp at hrem
  | some t =>
    obtain ⟨i, j, h2⟩ := t
    rw [hscan] at hrem
    simp only [Option.some.injEq, Prod.mk.injEq] at hrem
    obtain ⟨rfl, rfl⟩ := hrem
    obtain ⟨hi, hj, hij, hjoin⟩ := planarEdgeScan_sound s.facets i j h2 hscan
    refine ⟨i, j, hi, hj, hij, hjoin, rfl, rfl, ?_⟩
    simp only [List.length_append, List.length_singleton]
    rw [removeTwo_length s.facets i j hij hi hj]
    omega

theorem remove_planar_edge_of_empty (s : Solid R) (h0 : s.facets.length = 0) :
    remove_planar_edge s = none := by
  rw [remove_planar_edge]
  have hscan : planarEdgeScan s.facets = none := by
    rw [planarEdgeScan, scanFirstSome_eq_none_iff]
    intro i h1 h2
    exact absurd h2 (by omega)
  rw [hscan]

theorem removePlanarLoop_length (fuel : Nat) (s : Solid R) :
    (removePlanarLoop fuel s).2.facets.length + (removePlanarLoop fuel s).1 =
      s.facets.length := by
  induction fuel generalizing s with
  | zero => rfl
  | succ n ih =>
    rw [removePlanarLoop]
    cases hrem : remove_planar_edge s with
    | none => rfl
    | some p =>
      obtain ⟨h, s1⟩ := p
      obtain ⟨i, j, _, _, _, _, _, _, hlen⟩ :=
        remove_planar_edge_some s h s1 hrem
      have ihs := ih s1
      simp only []
      omega

theorem removePlanarLoop_fixed (fuel : Nat) (s : Solid R)
    (hf : s.facets.length ≤ fuel) :
    remove_planar_edge (removePlanarLoop fuel s).2 = none := by
  induction fuel generalizing s with
  | zero =>
    rw [removePlanarLoop]
    exact remove_planar_edge_of_empty s (by omega)
  | succ n ih =>
    rw [removePlanarLoop]
    cases hrem : remove_planar_edge s with
    | none => simpa using hrem
    | some p =>
      obtain ⟨h, s1⟩ := p
      obtain ⟨i, j, _, _, _, _, _, _, hlen⟩ :=
        remove_planar_edge_some s h s1 hrem
      have := ih s1 (by omega)
      simpa using this

/-- C4: remove_planar_edges repeatedly calls remove_planar_edge until it
returns None (the returned solid is a fixed point) and counts the merges: it
returns (0, s) when the first call already fails, and one more than the
count of the solid after a successful first merge otherwise.  On the two
coplanar right triangles sharing their hypotenuse it performs exactly one
merge leaving the single 4 vertex quadrilateral facet, and on a solid whose
two facets have different normals it performs no merge and leaves the facet
list unchanged. -/
theorem remove_planar_edges_spec (s : Solid R) :
    (remove_planar_edge s = none → remove_planar_edges s = (0, s)) ∧
      (∀ h s1, remove_planar_edge s = some (h, s1) →
        remove_planar_edges s =
          ((remove_planar_edges s1).1 + 1, (remove_planar_edges s1).2)) ∧
      remove_planar_edge (remove_planar_edges s).2 = none ∧
      remove_planar_edges twoTriSolid = (1, joinedSolid) ∧
      squareQuad.vertices.length = 4 ∧
      remove_planar_edges noJoinSolid = (0, noJoinSolid) := by
  refine ⟨?_, ?_, ?_, by decide, by decide, by decide⟩
  · intro hrem
    rw [remove_planar_edges]
    cases hlen : s.facets.length with
    | zero => rfl
    | succ n => rw [removePlanarLoop, hrem]
  · intro h s1 hrem
    obtain ⟨i, j, _, _, _, _, _, _, hlen⟩ :=
      remove_planar_edge_some s h s1 hrem
    rw [remove_planar_edges, remove_planar_edges]
    rw [show s.facets.length = s1.facets.length + 1 from by omega]
    rw [removePlanarLoop, hrem]
  · exact removePlanarLoop_fixed s.facets.length s le_rfl

/-- Witness for C4 at the two triangle solid: the first merge succeeds with
the quadrilateral, and the recurrence of the theorem applies concretely. -/
theorem remove_planar_edges_spec_witness :
    remove_planar_edge twoTriSolid = some (squareQuad, joinedSolid) ∧
      remove_planar_edges twoTriSolid =
        ((remove_planar_edges joinedSolid).1 + 1,
          (remove_planar_edges joinedSolid).2) :=
  ⟨by decide,
   (remove_planar_edges_spec twoTriSolid).2.1 squareQuad joinedSolid (by decide)⟩

/-- C9: remove_planar_edges terminates with a facet list exactly count many
entries shorter than the input, because every successful remove_planar_edge
removes the two joined facets at distinct positions i and j, appends the
single merged facet at the end of the list, keeps the name, and therefore
shrinks the list by exactly one. -/
theorem remove_planar_edges_length_account (s : Solid R) :
    ((remove_planar_edges s).2.facets.length + (remove_planar_edges s).1 =
        s.facets.length) ∧
      ∀ h s1, remove_planar_edge s = some (h, s1) →
        s1.facets.length + 1 = s.facets.length ∧
        s1.name = s.name ∧
        ∃ i j, i < s.facets.length ∧ j < s.facets.length ∧ i ≠ j ∧
          (fget s.facets i).join (fget s.facets j) = some h ∧
          s1.facets = removeTwo s.facets i j ++ [h] := by
  refine ⟨removePlanarLoop_length s.facets.length s, ?_⟩
  intro h s1 hrem
  obtain ⟨i, j, hi, hj, hij, hjoin, hfac, hname, hlen⟩ :=
    remove_planar_edge_some s h s1 hrem
  exact ⟨hlen, hname, i, j, hi, hj, hij, hjoin, hfac⟩

/-- Witness for C9 at the two triangle solid. -/
theorem remove_planar_edges_length_account_witness :
    joinedSolid.facets.length + 1 = twoTriSolid.facets.length :=
  ((remove_planar_edges_length_account twoTriSolid).2 squareQuad joinedSolid
    (by decide)).1

/-
Helper lemmas for sort_vertices: the lexicographic order and the minimum
index scan.
-/

theorem vecLe_iff (a b : Vec R) :
    vecLe a b = true ↔
      a.x < b.x ∨ (a.x = b.x ∧ (a.y < b.y ∨ (a.y = b.y ∧ a.z ≤ b.z))) := by
  simp [vecLe]

theorem vecLe_refl (a : Vec R) : vecLe a a = true := by
  rw [vecLe_iff]
  exact Or.inr ⟨rfl, Or.inr ⟨rfl, le_rfl⟩⟩

theorem vecLe_total (a b : Vec R) : vecLe a b = true ∨ vecLe b a = true := by
  rw [vecLe_iff, vecLe_iff]
  rcases lt_trichotomy a.x b.x with h | h | h
  · exact Or.inl (Or.inl h)
  · rcases lt_trichotomy a.y b.y with h2 | h2 | h2
    · exact Or.inl (Or.inr ⟨h, Or.inl h2⟩)
    · rcases le_total a.z b.z with h3 | h3
      · exact Or.inl (Or.inr ⟨h, Or.inr ⟨h2, h3⟩⟩)
      · exact Or.inr (Or.inr ⟨h.symm, Or.inr ⟨h2.symm, h3⟩⟩)
    · exact Or.inr (Or.inr ⟨h.symm, Or.inl h2⟩)
  · exact Or.inr (Or.inl h)

theorem vecLe_trans {a b c : Vec R} (h1 : vecLe a b = true)
    (h2 : vecLe b c = true) : vecLe a c = true := by
  rw [vecLe_iff] at h1 h2 ⊢
  rcases h1 with h1 | ⟨e1, h1⟩ <;> rcases h2 with h2 | ⟨e2, h2⟩
  · exact Or.inl (lt_trans h1 h2)
  · exact Or.inl (lt_of_lt_of_le h1 (le_of_eq e2))
  · exact Or.inl (lt_of_le_of_lt (le_of_eq e1) h2)
  · refine Or.inr ⟨e1.trans e2, ?_⟩
    rcases h1 with h1 | ⟨f1, h1⟩ <;> rcases h2 with h2 | ⟨f2, h2⟩
    · exact Or.inl (lt_trans h1 h2)
    · exact Or.inl (lt_of_lt_of_le h1 (le_of_eq f2))
    · exact Or.inl (lt_of_le_of_lt (le_of_eq f1) h2)
    · exact Or.inr ⟨f1.trans f2, le_trans h1 h2⟩

theorem vecLe_antisymm {a b : Vec R} (h1 : vecLe a b = true)
    (h2 : vecLe b a = true) : a = b := by
  rw [vecLe_iff] at h1 h2
  obtain ⟨a1, a2, a3⟩ := a
  obtain ⟨b1, b2, b3⟩ := b
  simp only at h1 h2
  rcases h1 with h1 | ⟨e1, h1⟩ <;> rcases h2 with h2 | ⟨e2, h2⟩
  · exact absurd h2 (lt_asymm h1)
  · exact absurd (e2 ▸ h1) (lt_irrefl b1)
  · exact absurd (e1 ▸ h2) (lt_irrefl b1)
  · subst e1
    rcases h1 with h1 | ⟨f1, h1⟩ <;> rcases h2 with h2 | ⟨f2, h2⟩
    · exact absurd h2 (lt_asymm h1)
    · exact absurd (f2 ▸ h1) (lt_irrefl b2)
    · exact absurd (f1 ▸ h2) (lt_irrefl b2)
    · subst f1
      rw [le_antisymm h1 h2]

theorem indexOfMin_lt (vs : List (Vec R)) (hne : vs ≠ []) :
    indexOfMin vs < vs.length := by
  induction vs with
  | nil => exact absurd rfl hne
  | cons v rest ih =>
    cases hr : rest[indexOfMin rest]? with
    | none =>
      rw [indexOfMin, hr]
      simp
    | some w =>
      rw [indexOfMin, hr]
      show (if vecLe v w = true then 0 else indexOfMin rest + 1) <
        (v :: rest).length
      by_cases hle : vecLe v w
      · rw [if_pos hle]
        simp
      · rw [if_neg hle]
        have hlt : indexOfMin rest < rest.length := by
          cases rest with
          | nil => simp at hr
          | cons a t => exact ih (by simp)
        simp only [List.length_cons]
        omega

theorem indexOfMin_min (vs : List (Vec R)) :
    ∀ w ∈ vs, vecLe (vget vs (indexOfMin vs)) w = true := by
  induction vs with
  | nil =>
    intro w hw
    simp at hw
  | cons v rest ih =>
    intro w hw
    cases hr : rest[indexOfMin rest]? with
    | none =>
      have hrest : rest = [] := by
        cases rest with
        | nil => rfl
        | cons a t =>
          have hlt := indexOfMin_lt (a :: t) (by simp)
          rw [List.getElem?_eq_getElem hlt] at hr
          simp at hr
      subst hrest
      rw [indexOfMin, hr]
      rcases List.mem_singleton.mp hw with rfl
      simpa [vget] using vecLe_refl w
    | some u =>
      have hlt : indexOfMin rest < rest.length := by
        cases rest with
        | nil => simp at hr
        | cons a t => exact indexOfMin_lt _ (by simp)
      have hu : u = vget rest (indexOfMin rest) := by
        rw [List.getElem?_eq_getElem hlt] at hr
        rw [vget, List.getD_eq_getElem _ _ hlt]
        exact (Option.some.injEq _ _ ▸ hr).symm
      rw [indexOfMin, hr]
      show vecLe
        (vget (v :: rest)
          (if vecLe v u = true then 0 else indexOfMin rest + 1)) w = true
      by_cases hle : vecLe v u
      · rw [if_pos hle]
        rcases List.mem_cons.mp hw with rfl | hw2
        · simpa [vget] using vecLe_refl w
        · have hmin := ih w hw2
          rw [← hu] at hmin
          have := vecLe_trans hle hmin
          simpa [vget] using this
      · rw [if_neg hle]
        have hget : vget (v :: rest) (indexOfMin rest + 1) =
            vget rest (indexOfMin rest) := by
          rw [vget, vget, List.getD_cons_succ]
        rw [hget, ← hu]
        rcases List.mem_cons.mp hw with rfl | hw2
        · rcases vecLe_total u w with h | h
          · exact h
          · exact absurd h hle
        · have hmin := ih w hw2
          rw [← hu] at hmin
          exact hmin

theorem indexOfMin_eq_of_first (vs : List (Vec R)) (i : Nat)
    (hi : i < vs.length)
    (hmin : ∀ w ∈ vs, vecLe (vget vs i) w = true)
    (hfirst : ∀ p, p < i → vecLe (vget vs p) (vget vs i) = false) :
    indexOfMin vs = i := by
  induction vs generalizing i with
  | nil => simp at hi
  | cons v rest ih =>
    cases i with
    | zero =>
      cases hr : rest[indexOfMin rest]? with
      | none => rw [indexOfMin, hr]
      | some u =>
        rw [indexOfMin, hr]
        show (if vecLe v u = true then 0 else indexOfMin rest + 1) = 0
        have hu_mem : u ∈ rest := List.getElem?_mem hr
        have hvu : vecLe v u = true := by
          have := hmin u (List.mem_cons_of_mem v hu_mem)
          simpa [vget] using this
        rw [if_pos hvu]
    | succ i1 =>
      have hlt1 : i1 < rest.length := by simpa using hi
      have hmin1 : ∀ w ∈ rest, vecLe (vget rest i1) w = true := by
        intro w hw
        have := hmin w (List.mem_cons_of_mem v hw)
        simpa [vget, List.getD_cons_succ] using this
      have hfirst1 : ∀ p, p < i1 →
          vecLe (vget rest p) (vget rest i1) = false := by
        intro p hp
        have := hfirst (p + 1) (by omega)
        simpa [vget, List.getD_cons_succ] using this
      have hrec := ih i1 hlt1 hmin1 hfirst1
      have hsome : rest[indexOfMin rest]? = some (vget rest i1) := by
        rw [hrec, List.getElem?_eq_getElem hlt1, vget,
          List.getD_eq_getElem _ _ hlt1]
      rw [indexOfMin, hsome]
      show (if vecLe v (vget rest i1) = true then 0 else indexOfMin rest + 1) =
        i1 + 1
      have hv : vecLe v (vget rest i1) = false := by
        have := hfirst 0 (by omega)
        simpa [vget, List.getD_cons_succ] using this
      rw [if_neg (by simp [hv]), hrec]

theorem sort_vertices_eq_rotate (vs : List (Vec R)) :
    sort_vertices vs = vs.rotate (indexOfMin vs) := by
  apply List.ext_getElem
  · simp [sort_vertices, List.length_rotate]
  · intro i h1 h2
    have hn : i < vs.length := by simpa [sort_vertices] using h1
    rw [List.getElem_rotate]
    simp only [sort_vertices, List.getElem_map, List.getElem_range]
    rw [vget, List.getD_eq_getElem]

theorem add_mod_inj {n p q r : Nat} (hp : p < n) (hq : q < n)
    (h : (p + r) % n = (q + r) % n) : p = q := by
  have hp2 : (p + r) % n = (p + r % n) % n := by
    conv_lhs => rw [Nat.add_mod]
    conv_rhs => rw [Nat.add_mod]
    simp
  have hq2 : (q + r) % n = (q + r % n) % n := by
    conv_lhs => rw [Nat.add_mod]
    conv_rhs => rw [Nat.add_mod]
    simp
  rw [hp2, hq2] at h
  have hs : r % n < n := Nat.mod_lt _ (by omega)
  have hps : (p + r % n) % n =
      if p + r % n < n then p + r % n else p + r % n - n := by
    split_ifs with hc
    · exact Nat.mod_eq_of_lt hc
    · rw [Nat.mod_eq_sub_mod (by omega)]
      exact Nat.mod_eq_of_lt (by omega)
  have hqs : (q + r % n) % n =
      if q + r % n < n then q + r % n else q + r % n - n := by
    split_ifs with hc
    · exact Nat.mod_eq_of_lt hc
    · rw [Nat.mod_eq_sub_mod (by omega)]
      exact Nat.mod_eq_of_lt (by omega)
  rw [hps, hqs] at h
  split_ifs at h <;> omega

theorem vget_rotate (vs : List (Vec R)) (r i : Nat) (hi : i < vs.length) :
    vget (vs.rotate r) i = vget vs ((i + r) % vs.length) := by
  have h2 : i < (vs.rotate r).length := by
    rw [List.length_rotate]
    exact hi
  rw [vget, vget, List.getD_eq_getElem _ _ h2,
    List.getD_eq_getElem _ _ (Nat.mod_lt _ (by omega)),
    List.getElem_rotate]

theorem indexOfMin_rotate (vs : List (Vec R)) (hne : vs ≠ []) (r : Nat)
    (hr : r < vs.length)
    (huniq : ∀ p, p < vs.length →
      vget vs p = vget vs (indexOfMin vs) → p = indexOfMin vs) :
    indexOfMin (vs.rotate r) = (indexOfMin vs + vs.length - r) % vs.length := by
  have hn : 0 < vs.length := by
    cases vs with
    | nil => exact absurd rfl hne
    | cons a t => simp
  have hk : indexOfMin vs < vs.length := indexOfMin_lt vs hne
  have hq : (indexOfMin vs + vs.length - r) % vs.length < vs.length :=
    Nat.mod_lt _ hn
  have hqr : ((indexOfMin vs + vs.length - r) % vs.length + r) % vs.length =
      indexOfMin vs := by
    conv_lhs => rw [Nat.add_mod]
    rw [Nat.mod_mod_of_dvd _ (dvd_refl _)]
    rw [← Nat.add_mod]
    rw [show indexOfMin vs + vs.length - r + r = indexOfMin vs + vs.length from
      by omega]
    rw [Nat.add_mod, Nat.mod_self]
    simp [Nat.mod_eq_of_lt hk]
  apply indexOfMin_eq_of_first
  · rw [List.length_rotate]
    exact hq
  · intro w hw
    rw [vget_rotate vs r _ hq, hqr]
    exact indexOfMin_min vs w (List.mem_rotate.mp hw)
  · intro p hp
    have hp2 : p < vs.length := by omega
    rw [vget_rotate vs r _ hq, hqr, vget_rotate vs r _ hp2]
    by_contra hcon
    rw [Bool.not_eq_false] at hcon
    have hmin := indexOfMin_min vs (vget vs ((p + r) % vs.length))
      (by rw [vget, List.getD_eq_getElem _ _ (Nat.mod_lt _ hn)]
          exact List.getElem_mem _)
    have heq := vecLe_antisymm hcon hmin
    have hpk := huniq ((p + r) % vs.length) (Nat.mod_lt _ hn) heq
    have : p = (indexOfMin vs + vs.length - r) % vs.length := by
      apply add_mod_inj hp2 hq
      rw [hpk, hqr]
    omega

theorem sort_vertices_idem (vs : List (Vec R)) :
    sort_vertices (sort_vertices vs) = sort_vertices vs := by
  by_cases hne : vs = []
  · subst hne
    rfl
  · have hk := indexOfMin_lt vs hne
    have h0 : indexOfMin (sort_vertices vs) = 0 := by
      apply indexOfMin_eq_of_first
      · rw [sort_vertices_eq_rotate, List.length_rotate]
        omega
      · intro w hw
        rw [sort_vertices_eq_rotate] at hw ⊢
        rw [vget_rotate vs (indexOfMin vs) 0 (by omega)]
        rw [show (0 + indexOfMin vs) % vs.length = indexOfMin vs from by
          rw [Nat.zero_add, Nat.mod_eq_of_lt hk]]
        exact indexOfMin_min vs w (List.mem_rotate.mp hw)
      · intro p hp
        omega
    rw [sort_vertices_eq_rotate (sort_vertices vs), h0, List.rotate_zero]

theorem sort_vertices_rotate_inv (vs : List (Vec R)) (hne : vs ≠ []) (r : Nat)
    (huniq : ∀ p, p < vs.length →
      vget vs p = vget vs (indexOfMin vs) → p = indexOfMin vs) :
    sort_vertices (vs.rotate r) = sort_vertices vs := by
  have hn : 0 < vs.length := List.length_pos.mpr hne
  have hrw : vs.rotate r = vs.rotate (r % vs.length) :=
    (List.rotate_mod vs r).symm
  rw [hrw]
  have hr : r % vs.length < vs.length := Nat.mod_lt _ hn
  have hq := indexOfMin_rotate vs hne (r % vs.length) hr huniq
  rw [sort_vertices_eq_rotate (vs.rotate (r % vs.length)), hq,
    List.rotate_rotate, sort_vertices_eq_rotate vs]
  have h1 : vs.rotate
      (r % vs.length + (indexOfMin vs + vs.length - r % vs.length) % vs.length) =
      vs.rotate
        ((r % vs.length +
          (indexOfMin vs + vs.length - r % vs.length) % vs.length) % vs.length) :=
    (List.rotate_mod vs _).symm
  rw [h1]
  have h2 : (r % vs.length +
      (indexOfMin vs + vs.length - r % vs.length) % vs.length) % vs.length =
      indexOfMin vs := by
    have hstep : (r % vs.length +
        (indexOfMin vs + vs.length - r % vs.length) % vs.length) % vs.length =
        (r % vs.length + (indexOfMin vs + vs.length - r % vs.length)) %
          vs.length := by
      conv_lhs => rw [Nat.add_mod]
      conv_rhs => rw [Nat.add_mod]
      simp
    rw [hstep]
    rw [show r % vs.length + (indexOfMin vs + vs.length - r % vs.length) =
        indexOfMin vs + vs.length from by omega]
    rw [Nat.add_mod, Nat.mod_self]
    simp [Nat.mod_eq_of_lt (indexOfMin_lt vs hne)]
  rw [h2]

/-- C5 (amended): sort_vertices rotates the vertex list (never reverses it)
by the index of the first occurrence of the lexicographically smallest
vertex, placing that vertex at index 0 and preserving cyclic adjacency; it
is idempotent; and it is invariant under every cyclic rotation of the input
provided the smallest vertex occurs only once in the list (with a repeated
smallest vertex different rotations can normalize differently, see the
counterexample). -/
theorem sort_vertices_spec (vs : List (Vec R)) (hne : vs ≠ []) :
    sort_vertices vs = vs.rotate (indexOfMin vs) ∧
      (∀ w ∈ vs, vecLe (vget (sort_vertices vs) 0) w = true) ∧
      sort_vertices (sort_vertices vs) = sort_vertices vs ∧
      ∀ r, (∀ p, p < vs.length →
          vget vs p = vget vs (indexOfMin vs) → p = indexOfMin vs) →
        sort_vertices (vs.rotate r) = sort_vertices vs := by
  refine ⟨sort_vertices_eq_rotate vs, ?_, sort_vertices_idem vs, ?_⟩
  · intro w hw
    rw [sort_vertices_eq_rotate]
    rw [vget_rotate vs (indexOfMin vs) 0 (List.length_pos.mpr hne)]
    rw [show (0 + indexOfMin vs) % vs.length = indexOfMin vs from by
      rw [Nat.zero_add, Nat.mod_eq_of_lt (indexOfMin_lt vs hne)]]
    exact indexOfMin_min vs w hw
  · intro r huniq
    exact sort_vertices_rotate_inv vs hne r huniq

/-- Witness for C5 at the unit square vertex list, which has pairwise
distinct vertices: the canonical rotation and the invariance under the
rotation by two are concrete. -/
theorem sort_vertices_spec_witness :
    sort_vertices squareFacet.vertices =
        squareFacet.vertices.rotate (indexOfMin squareFacet.vertices) ∧
      sort_vertices (squareFacet.vertices.rotate 2) =
        sort_vertices squareFacet.vertices := by
  have h := sort_vertices_spec squareFacet.vertices (by decide)
  exact ⟨h.1, h.2.2.2 2 (by decide)⟩

/-- Counterexample to C5 as stated: when the smallest vertex occurs twice,
two rotations of the same cyclic vertex list with the same winding can
normalize to different vertex sequences. -/
theorem sort_vertices_rotation_counterexample :
    dupMinList.rotate 1 = [⟨1, 0, 0⟩, ⟨0, 0, 0⟩, ⟨2, 0, 0⟩, ⟨0, 0, 0⟩] ∧
      sort_vertices (dupMinList.rotate 1) ≠ sort_vertices dupMinList := by
  decide
